import Mathlib

/-!
Verification of the GCODE conversion core of the 3d-printer-server repository
(`src/model/gcode_parser.py`), shallowly embedded in Lean 4.

Machine floats are modelled by exact rationals (`ℚ`); `numpy` arrays by lists.
Square roots do not stay inside `ℚ`, so every definition that mirrors a call to
`np.linalg.norm` either compares squared norms (exactly equivalent for the
non-negative quantities involved) or takes the square-root operation as an
explicit function parameter `rt : ℚ → ℚ`, so that all definitions stay
executable and theorems can quantify over the rounding behaviour of the root.
-/

/-- A 3-component vector, mirroring one row of an `n`-by-3 numpy slice. -/
structure Vec3 where
  x : ℚ
  y : ℚ
  z : ℚ
deriving DecidableEq, Repr

instance : Add Vec3 := ⟨fun a b => ⟨a.x + b.x, a.y + b.y, a.z + b.z⟩⟩
instance : Sub Vec3 := ⟨fun a b => ⟨a.x - b.x, a.y - b.y, a.z - b.z⟩⟩
instance : Zero Vec3 := ⟨⟨0, 0, 0⟩⟩

/-- Scalar multiple of a `Vec3`. -/
def Vec3.smul (q : ℚ) (v : Vec3) : Vec3 := ⟨q * v.x, q * v.y, q * v.z⟩

@[simp] theorem Vec3.add_def (a b : Vec3) :
    a + b = ⟨a.x + b.x, a.y + b.y, a.z + b.z⟩ := rfl

@[simp] theorem Vec3.sub_def (a b : Vec3) :
    a - b = ⟨a.x - b.x, a.y - b.y, a.z - b.z⟩ := rfl

@[simp] theorem Vec3.zero_def : (0 : Vec3) = ⟨0, 0, 0⟩ := rfl

@[simp] theorem Vec3.smul_def (q : ℚ) (v : Vec3) :
    Vec3.smul q v = ⟨q * v.x, q * v.y, q * v.z⟩ := rfl

/-- Cross product of two 3-vectors (`np.cross`). -/
def cross3 (u v : Vec3) : Vec3 :=
  ⟨u.y * v.z - u.z * v.y, u.z * v.x - u.x * v.z, u.x * v.y - u.y * v.x⟩

/-- Squared euclidean norm of a 3-vector (`np.linalg.norm(...)**2`). -/
def normSq3 (v : Vec3) : ℚ := v.x * v.x + v.y * v.y + v.z * v.z

/-- One parsed point: x, y, z and cumulative extrusion e, mirroring one row of
the interpreter's `n`-by-4 arrays. -/
structure Pt4 where
  x : ℚ
  y : ℚ
  z : ℚ
  e : ℚ
deriving DecidableEq, Repr

instance : Inhabited Pt4 := ⟨⟨0, 0, 0, 0⟩⟩

/-- The first three components of a point (`line[:, :3]`). -/
def Pt4.xyz (p : Pt4) : Vec3 := ⟨p.x, p.y, p.z⟩

/-- Axis access by numpy index 0..3, mirroring `current_pt[idx]`. -/
def Pt4.get : Pt4 → ℕ → ℚ
  | p, 0 => p.x
  | p, 1 => p.y
  | p, 2 => p.z
  | p, 3 => p.e
  | _, _ => 0

/-- Axis update by numpy index 0..3, mirroring `current_pt[idx] = v`. -/
def Pt4.set : Pt4 → ℕ → ℚ → Pt4
  | p, 0, v => { p with x := v }
  | p, 1, v => { p with y := v }
  | p, 2, v => { p with z := v }
  | p, 3, v => { p with e := v }
  | p, _, _ => p

/-- Componentwise sum, mirroring `[c+r for c, r in zip(current_pt, relative_pos)]`. -/
def Pt4.addPt (a b : Pt4) : Pt4 := ⟨a.x + b.x, a.y + b.y, a.z + b.z, a.e + b.e⟩

/-- Squared euclidean norm over all four components, mirroring
`np.linalg.norm(line[1] - line[0])**2` on a row of an `n`-by-4 array. -/
def normSq4 (a b : Pt4) : ℚ :=
  (a.x - b.x) * (a.x - b.x) + (a.y - b.y) * (a.y - b.y) +
    (a.z - b.z) * (a.z - b.z) + (a.e - b.e) * (a.e - b.e)

/-- Mirrors `COORD.find(p[0])` with `COORD = "XYZE"`: the axis index of a
parameter letter, `none` for unrecognized letters (which the source ignores). -/
def axisIdx : Char → Option ℕ
  | 'X' => some 0
  | 'Y' => some 1
  | 'Z' => some 2
  | 'E' => some 3
  | _ => none

/-- One line of the command stream after tokenization.  String-level
tokenization (comment stripping, splitting on whitespace, float parsing) is
abstracted: a parameter is its leading letter plus its numeric value, and
lines that the interpreter ignores (blank lines, other comments, unknown
commands) are all `blank`. -/
inductive GLine where
  /-- A `;TYPE:t` comment line (t already stripped). -/
  | typeComment (t : String)
  /-- A blank line, plain comment, or unknown command: ignored. -/
  | blank
  /-- A `T<n>` tool-select command; the source accepts it only when the suffix
  is a single digit `0`..`6`, which the step function checks via `n ≤ 6`. -/
  | tool (n : ℕ)
  | g90
  | g91
  | m82
  | m83
  /-- A `G92` command with its axis parameters. -/
  | g92 (ps : List (Char × ℚ))
  /-- A `G0` or `G1` linear move with its axis parameters. -/
  | move (ps : List (Char × ℚ))
deriving DecidableEq, Repr

/-- The Cura type-comment names treated as support, `SUPPORT_TYPES`. -/
def SUPPORT_TYPES : List String := ["SKIRT", "SUPPORT", "SUPPORT-INTERFACE", "PRIME-TOWER"]

/-- The Cura type-comment names treated as infill, `INFILL_TYPES`. -/
def INFILL_TYPES : List String := ["FILL"]

/-- The interpreter state carried across lines by `parse_gcode_file`.
`lines` holds one buffer per entry of the include list; `curIdx` is the
position inside `lines` that the Python alias `cur_lines` points at. -/
structure PState where
  lines : List (List (List Pt4))
  curIdx : ℕ
  maxUsedCore : ℕ
  currentPt : Pt4
  eChange : List ℚ
  printcore : ℕ
  skipping : Bool
  relativePos : Pt4
  absPos : Bool
  absE : Bool
deriving Repr

/-- The initial interpreter state of `parse_gcode_file` for an include list. -/
def initState (inc : List ℕ) : PState :=
  { lines := List.replicate inc.length [[]]
    curIdx := 0
    maxUsedCore := 0
    currentPt := ⟨0, 0, 0, 0⟩
    eChange := List.replicate inc.length 0
    printcore := 0
    skipping := false
    relativePos := ⟨0, 0, 0, 0⟩
    absPos := true
    absE := true }

/-- Mirrors the move-closing branch: `if len(cur_lines[-1]) <= 1:
cur_lines[-1].clear() else: cur_lines.append([])`. -/
def closeLine (buf : List (List Pt4)) : List (List Pt4) :=
  if (buf.getLastD []).length ≤ 1 then buf.dropLast ++ [[]] else buf ++ [[]]

/-- Mirrors `cur_lines[-1].append(pt)`. -/
def appendPt (pt : Pt4) (buf : List (List Pt4)) : List (List Pt4) :=
  buf.dropLast ++ [buf.getLastD [] ++ [pt]]

/-- The parameter fold of a `G0`/`G1` command: each recognized axis is updated
with the active operator (`op` for X/Y/Z, `extruder_op` for E); `true` means
absolute positioning (take the new value), `false` relative (add). -/
def applyMove (absPos absE : Bool) (pt : Pt4) (ps : List (Char × ℚ)) : Pt4 :=
  ps.foldl
    (fun pt p =>
      match axisIdx p.1 with
      | none => pt
      | some i =>
        if i = 3 then pt.set 3 (if absE then p.2 else pt.get 3 + p.2)
        else pt.set i (if absPos then p.2 else pt.get i + p.2))
    pt

/-- One line of the interpreter loop of `parse_gcode_file`. -/
def step (inc : List ℕ) (ignoreSupport ignoreInfill : Bool) (s : PState) :
    GLine → PState
  | .typeComment t =>
      { s with skipping :=
          (ignoreSupport && decide (t ∈ SUPPORT_TYPES)) ||
          (ignoreInfill && decide (t ∈ INFILL_TYPES)) }
  | .blank => s
  | .tool n =>
      if n ≤ 6 then
        let s := { s with printcore := n }
        if n ∈ inc then
          { s with curIdx := inc.indexOf n
                   maxUsedCore := if s.maxUsedCore < n then n else s.maxUsedCore }
        else s
      else s
  | .g90 => { s with absPos := true, absE := true }
  | .g91 => { s with absPos := false, absE := false }
  | .m82 => { s with absE := true }
  | .m83 => { s with absE := false }
  | .g92 ps =>
      ps.foldl
        (fun st p =>
          match axisIdx p.1 with
          | none => st
          | some i =>
            { st with
              relativePos := st.relativePos.set i (st.relativePos.get i + st.currentPt.get i)
              currentPt := st.currentPt.set i p.2 })
        s
  | .move ps =>
      let lastE := s.currentPt.e
      let cur := applyMove s.absPos s.absE s.currentPt ps
      let s := { s with currentPt := cur }
      if s.printcore ∈ inc then
        let pci := inc.indexOf s.printcore
        let old := s.eChange.getD pci 0
        let ec := (if old ≤ 0 then old else 0) + cur.e - lastE
        let s := { s with eChange := s.eChange.set pci ec }
        let buf := s.lines.getD s.curIdx []
        let buf := if ec ≤ 0 then closeLine buf else buf
        let pt := cur.addPt s.relativePos
        let buf := if s.skipping then buf else appendPt pt buf
        { s with lines := s.lines.set s.curIdx buf }
      else s

/-- The highest valid tool index named by a tool-select command of the stream
(0 when there is none; tool 0 is the implicitly active default tool). -/
def maxToolSel : List GLine → ℕ
  | [] => 0
  | .tool n :: rest => if n ≤ 6 then max n (maxToolSel rest) else maxToolSel rest
  | _ :: rest => maxToolSel rest

/-- The interpreter output paired with the tool index each buffer belongs to:
single-point lines are dropped, then every buffer whose tool index exceeds
`max_used_core` is deleted.  The source deletes by the positions
`include.index(pc)`; for a duplicate-free include list that is exactly
keeping the pairs whose tool index is at most `max_used_core`. -/
def parse_tools (gcode : List GLine) (inc : List ℕ)
    (ignoreSupport ignoreInfill : Bool) : List (ℕ × List (List Pt4)) :=
  if inc.length = 0 then []
  else
    let s := gcode.foldl (step inc ignoreSupport ignoreInfill) (initState inc)
    let filtered := s.lines.map (fun buf => buf.filter (fun l => 1 < l.length))
    (inc.zip filtered).filter (fun p => p.1 ≤ s.maxUsedCore)

/-- Embeds `parse_gcode_file`: the retained multi-point polylines per
included-and-used tool, in include order. -/
def parse_gcode_file (gcode : List GLine) (inc : List ℕ)
    (ignoreSupport ignoreInfill : Bool) : List (List (List Pt4)) :=
  (parse_tools gcode inc ignoreSupport ignoreInfill).map Prod.snd

/-- The ratchet rule applied to the per-tool extrusion accumulator on every
move of an included tool:
`e_change[pci] = (e_change[pci] if e_change[pci] <= 0 else 0) + current_pt[3] - last_e`. -/
def ratchet (a d : ℚ) : ℚ := (if a ≤ 0 then a else 0) + d

/-!
Simplifier (`simplify_lines`).  Tolerances are the defaults of every call in
the source: `area_tolerance = 1e-2`, `sin_tolerance = 1e-3`, and
`length_tolerance = sqrt(area_tolerance)`.  All norm comparisons are stated on
squared quantities, which is exactly equivalent (both sides non-negative), and
makes the `0/0 -> nan -> False` behaviour of the sine test come out as `0 > 0`.
-/

/-- Mirrors the keep test of one pruning pass:
`keep = (area > area_tolerance) & (sin_theta > sin_tolerance)` where
`area = |cross(a-c, b-c)| / 2` and `sin_theta = area / (|a-c| |b-c|)` on the
xyz components.  With `c2 = |cross(a-c, b-c)|^2`: `area > 1e-2` iff
`c2 > 1/2500`, and `sin_theta > 1e-3` iff `c2 > |a-c|^2 |b-c|^2 / 250000`. -/
def keepTest (a b c : Pt4) : Bool :=
  let u := a.xyz - c.xyz
  let v := b.xyz - c.xyz
  let c2 := normSq3 (cross3 u v)
  decide ((1 : ℚ)/2500 < c2 ∧ normSq3 u * normSq3 v / 250000 < c2)

/-- All consecutive triples of a list, mirroring
`a, b, c = line[:-2], line[1:-1], line[2:]`. -/
def triples : List α → List (α × α × α)
  | a :: b :: c :: rest => (a, b, c) :: triples (b :: c :: rest)
  | _ => []

/-- The keep flag of every interior point of a polyline, one pruning pass. -/
def keepFlags (l : List Pt4) : List Bool :=
  (triples l).map fun t => keepTest t.1 t.2.1 t.2.2

/-- Mirrors boolean-mask indexing `line[keep]`. -/
def maskFilter : List α → List Bool → List α
  | a :: as, true :: bs => a :: maskFilter as bs
  | _ :: as, false :: bs => maskFilter as bs
  | _, _ => []

/-- One pruning pass: `keep = np.pad(keep, 1, constant_values=True);
line = line[keep]` (both endpoints always kept). -/
def applyKeep (l : List Pt4) (flags : List Bool) : List Pt4 :=
  maskFilter l (true :: flags ++ [true])

theorem triples_length (l : List α) : (triples l).length = l.length - 2 := by
  match l with
  | [] => rfl
  | [_] => rfl
  | [_, _] => rfl
  | a :: b :: c :: rest =>
    show (triples (b :: c :: rest)).length + 1 = _
    rw [triples_length (b :: c :: rest)]
    simp only [List.length_cons]
    omega

theorem maskFilter_length_le (l : List α) (m : List Bool) :
    (maskFilter l m).length ≤ l.length := by
  match l, m with
  | [], _ => simp [maskFilter]
  | _ :: _, [] => simp [maskFilter]
  | a :: as, true :: bs =>
    have := maskFilter_length_le as bs
    simp only [maskFilter, List.length_cons]
    omega
  | a :: as, false :: bs =>
    have := maskFilter_length_le as bs
    simp only [maskFilter, List.length_cons]
    omega

theorem maskFilter_length_lt (flags : List Bool) (l : List α) (m2 : List Bool)
    (hf : false ∈ flags) (hl : flags.length < l.length) :
    (maskFilter l (flags ++ m2)).length < l.length := by
  match flags, l with
  | [], _ => simp at hf
  | b :: bs, [] => simp at hl
  | true :: bs, a :: as =>
    have hf' : false ∈ bs := by
      cases List.mem_cons.1 hf with
      | inl h => exact absurd h.symm (by simp)
      | inr h => exact h
    have := maskFilter_length_lt bs as m2 hf' (by simpa using hl)
    simp only [List.cons_append, maskFilter, List.length_cons, List.append_eq]
    omega
  | false :: bs, a :: as =>
    have := maskFilter_length_le as (bs ++ m2)
    simp only [List.cons_append, maskFilter, List.length_cons, List.append_eq]
    omega

theorem keepFlags_nonempty_len {l : List Pt4} (h : keepFlags l ≠ []) :
    (keepFlags l).length + 2 = l.length := by
  have hlen : (keepFlags l).length = l.length - 2 := by
    simp [keepFlags, triples_length]
  have : l.length - 2 ≠ 0 := by
    intro h0
    exact h (List.eq_nil_of_length_eq_zero (hlen.trans h0))
  omega

theorem applyKeep_length_lt (l : List Pt4) (hne : keepFlags l ≠ [])
    (hf : false ∈ keepFlags l) : (applyKeep l (keepFlags l)).length < l.length := by
  have hlen := keepFlags_nonempty_len hne
  have hmem : false ∈ true :: keepFlags l := List.mem_cons_of_mem _ hf
  have hlt : (true :: keepFlags l).length < l.length := by
    simp only [List.length_cons]; omega
  have := maskFilter_length_lt (true :: keepFlags l) l [true] hmem hlt
  simpa [applyKeep] using this

/-- The `while True` pruning loop for one polyline, entered with its
`is_cycle` flag; returns `none` when the loop removes the polyline entirely
(the `remove.append(i)` branches). -/
def simpLoop (isCycle : Bool) (l : List Pt4) : Option (List Pt4) :=
  if l.length = 2 ∨ (isCycle ∧ l.length = 3) then
    if normSq4 (l.getD 1 default) (l.getD 0 default) < 1/100 then none else some l
  else
    if hall : (keepFlags l).all id then some l
    else
      have hf : false ∈ keepFlags l := by
        simp only [List.all_eq_true, id, not_forall] at hall
        obtain ⟨b, hb, hbf⟩ := hall
        cases b with
        | true => exact absurd rfl hbf
        | false => exact hb
      have hne : keepFlags l ≠ [] := by
        intro h; rw [h] at hf; exact (List.not_mem_nil _) hf
      have := applyKeep_length_lt l hne hf
      simpLoop isCycle (applyKeep l (keepFlags l))
termination_by l.length

/-- The per-polyline body of `simplify_lines`: polylines with fewer than 2
points are removed before the loop; otherwise the loop runs with the cycle
flag `(line[0, :2] == line[-1, :2]).all()`. -/
def simplifyOne (l : List Pt4) : Option (List Pt4) :=
  if l.length < 2 then none
  else
    let first := l.headD default
    let last := l.getLastD default
    simpLoop (first.x = last.x ∧ first.y = last.y : Bool) l

/-- Embeds `simplify_lines` at the default tolerances: each polyline is
simplified in place and the removed ones are deleted from the list. -/
def simplify_lines (lines : List (List Pt4)) : List (List Pt4) :=
  lines.filterMap simplifyOne

/-!
Layer indexing (`get_z_levels`, `get_layer_number`, `get_line_height`) and the
z-level folding of `gcode_to_json`.
-/

/-- The z coordinate of a polyline's first point, `line[0, 2]`. -/
def firstZ (l : List Pt4) : ℚ := (l.headD default).z

/-- Insertion into a strictly sorted duplicate-free list, the building block
used to model `np.unique` (which returns sorted unique values). -/
def insertZ (q : ℚ) : List ℚ → List ℚ
  | [] => [q]
  | y :: ys => if q < y then q :: y :: ys else if q = y then y :: ys else y :: insertZ q ys

/-- Embeds `get_z_levels`: the sorted unique first-point z values of a list of
polylines (`np.unique([line[0, 2] for line in lines])`). -/
def get_z_levels (lines : List (List Pt4)) : List ℚ :=
  (lines.map firstZ).foldr insertZ []

/-- Embeds the z-level folding of `gcode_to_json` (lines 45-47): `np.unique`
of the first-point z values of every tool's polylines, folded over all tools;
the result is the sorted union of the distinct first-point z values. -/
def zLevelsAll (tools : List (List (List Pt4))) : List ℚ :=
  ((tools.map (fun lines => lines.map firstZ)).flatten).foldr insertZ []

/-- Embeds `heights = np.concatenate([[z_levels[0]], np.diff(z_levels)])`;
the source indexes `z_levels[0]` and so raises on an empty level list, which
never carries a height record anyway; the empty case is mapped to `[]`. -/
def heightsOf : List ℚ → List ℚ
  | [] => []
  | z0 :: rest => z0 :: rest.zipWith (fun a b => a - b) (z0 :: rest)

/-- Embeds `get_layer_number` as called with an actual polyline:
`np.flatnonzero(z_levels == line[0, 2])[0]`, `none` when the `[0]` subscript
of an empty match raises IndexError. -/
def get_layer_number (line : List Pt4) (z_levels : List ℚ) : Option ℕ :=
  z_levels.indexOf? (firstZ line)

/-- Models `get_layer_number` as `get_line_height` actually calls it: the
source passes the scalar `line[0, 2]` where a polyline array is expected, so
the subscript `line[0, 2]` inside `get_layer_number` raises IndexError
("invalid index to scalar variable") on every call; no value is ever
returned, modelled as `none`. -/
def get_layer_number_scalar (z : ℚ) (z_levels : List ℚ) : Option ℕ := none

/-- Embeds `get_line_height`: `z if z_levels[0] == z else
z - z_levels[get_layer_number(line[0, 2], z_levels) - 1]`; the else branch
passes a scalar to `get_layer_number` and therefore always raises. -/
def get_line_height (line : List Pt4) (z_levels : List ℚ) : Option ℚ :=
  let z := firstZ line
  if z_levels.headD 0 = z then some z
  else (get_layer_number_scalar z z_levels).map (fun n => z - z_levels.getD (n - 1) 0)

/-!
Mesh builder (`get_vertices`, `create_faces`).  The square root inside
`np.linalg.norm` is the explicit parameter `rt`.
-/

/-- The perpendicular used for `normals`:
`np.stack([-prev_diff[:, 1], prev_diff[:, 0], prev_diff[:, 2]])`. -/
def perpP (v : Vec3) : Vec3 := ⟨-v.y, v.x, v.z⟩

/-- The perpendicular used for `next_normal`:
`np.stack([next_diff[:, 1], -next_diff[:, 0], next_diff[:, 2]])`. -/
def perpN (v : Vec3) : Vec3 := ⟨v.y, -v.x, v.z⟩

/-- The scale factor `line_width / scale` with the zero fallback
(`scale[scale==0] = 1`, `np.linalg.norm(vector) or 1`); `w` is the already
halved width and `v` the vector whose norm is taken. -/
def scaleFactor (rt : ℚ → ℚ) (w : ℚ) (v : Vec3) : ℚ :=
  let s := rt (normSq3 v)
  w / (if s = 0 then 1 else s)

/-- The offset vector of a first or last point: the single adjacent segment's
perpendicular scaled by `line_width / (norm(vector) or 1)`. -/
def endNormal (rt : ℚ → ℚ) (w : ℚ) (v : Vec3) : Vec3 :=
  Vec3.smul (scaleFactor rt w v) (perpP v)

/-- The offset vector of an interior point `b` with neighbours `a` and `c`:
`normals` starts as the perpendicular of `prev_diff = b - a`; the
perpendicular of `next_diff = b - c` is added only where
`(prev_diff[:, :2] == next_diff[:, :2]).all(1)`, i.e. only when the two
difference vectors agree exactly in x and y; then the result is scaled by
`line_width / scale` with the zero fallback. -/
def interiorNormal (rt : ℚ → ℚ) (w : ℚ) (a b c : Vec3) : Vec3 :=
  let pd := b - a
  let nd := b - c
  let raw := if pd.x = nd.x ∧ pd.y = nd.y then perpP pd + perpN nd else perpP pd
  Vec3.smul (scaleFactor rt w raw) raw

/-- The second half of the `get_vertices` buffer (`vertices =
vertices_all[num_pts*2:]`, the vertex pairs on the current plane, filled
first by the source): the first point's pair from its single following
segment, one pair per interior point, and the last point's pair from its
single preceding segment.  `line_width` is halved here, as in the source
(`line_width /= 2`). -/
def get_vertices_top (rt : ℚ → ℚ) (line : List Pt4) (line_width : ℚ) : List Vec3 :=
  let w := line_width / 2
  let n := line.length
  let pts := line.map Pt4.xyz
  let p0 := pts.headD 0
  let p1 := pts.getD 1 0
  let pl := pts.getLastD 0
  let pl1 := pts.getD (n - 2) 0
  let n0 := endNormal rt w (p1 - p0)
  let nl := endNormal rt w (pl - pl1)
  [p0 - n0, p0 + n0] ++
    ((triples pts).flatMap fun t =>
      let nrm := interiorNormal rt w t.1 t.2.1 t.2.2
      [t.2.1 - nrm, t.2.1 + nrm]) ++
    [pl - nl, pl + nl]

/-- Embeds `get_vertices`: all `4 n` box vertices of one polyline — the top
half preceded by its copy shifted down by `line_height`
(`vertices_all[:num_pts*2] = vertices - [0, 0, line_height]`).  For
`num_pts <= 1` the source returns the `np.empty` allocation uninitialized;
that garbage content is modelled as zero vectors of the same length. -/
def get_vertices (rt : ℚ → ℚ) (line : List Pt4) (line_height line_width : ℚ) :
    List Vec3 :=
  if line.length ≤ 1 then List.replicate (4 * line.length) 0
  else
    ((get_vertices_top rt line line_width).map fun v => v - ⟨0, 0, line_height⟩) ++
      get_vertices_top rt line line_width

/-- Embeds `create_faces`: the face-index template for a polyline of `n`
points, written out from the vectorized slice assignments (which fill rows
`8 j + k`, `k < 8`, for the `j`-th side quad, then the four cap rows). -/
def create_faces (n : ℕ) : List (ℕ × ℕ × ℕ) :=
  let m := 2 * n
  ((List.range (n - 1)).flatMap fun j =>
    let i := 2 * j
    [(i, i + 1, i + 3), (i, i + 3, i + 2),
     (i + m, i + 3 + m, i + 1 + m), (i + m, i + 2 + m, i + 3 + m),
     (i, i + 2, i + m), (i + 2, i + 2 + m, i + m),
     (i + 1, i + 1 + m, i + 3), (i + 3, i + 1 + m, i + 3 + m)]) ++
  [(0, m + 1, 1), (0, m, m + 1), (m - 2, m - 1, 2 * m - 1), (m - 2, 2 * m - 1, 2 * m - 2)]

/-- A computable stand-in for the square root: exact on ratios of perfect
squares, which is all the concrete witnesses need. -/
def ratSqrt (q : ℚ) : ℚ := (Nat.sqrt q.num.toNat : ℚ) / (Nat.sqrt q.den : ℚ)

/-!
The JSON entry point `gcode_to_json` for the empty include set.
-/

/-- Embeds line 25 of the source: `if not include: return "{'layers':[]}"` —
the literal early-return string of `gcode_to_json` for an empty include set,
single quotes included (braces written with escapes). -/
def gcode_to_json_empty_return : String := "\x7b'layers':[]\x7d"

/-- Modelled from the spec: the compact, valid encoding of the layer document
whose layers list is empty — the document shape `{"layers": []}` of Output 1
serialized by `json.dumps(data, separators=(',', ':'))` as the non-empty path
of `gcode_to_json` does it. -/
def valid_empty_layers_json : String := "\x7b\"layers\":[]\x7d"

/-!
Helper lemmas.
-/

theorem simpLoop_stop {isCycle : Bool} {l : List Pt4}
    (h : l.length = 2 ∨ (isCycle ∧ l.length = 3)) :
    simpLoop isCycle l =
      if normSq4 (l.getD 1 default) (l.getD 0 default) < 1/100 then none else some l := by
  rw [simpLoop, if_pos h]

theorem simpLoop_keepAll {isCycle : Bool} {l : List Pt4}
    (h : ¬(l.length = 2 ∨ (isCycle ∧ l.length = 3)))
    (hall : (keepFlags l).all id) :
    simpLoop isCycle l = some l := by
  rw [simpLoop, if_neg h, dif_pos hall]

theorem simpLoop_go {isCycle : Bool} {l : List Pt4}
    (h : ¬(l.length = 2 ∨ (isCycle ∧ l.length = 3)))
    (hall : ¬(keepFlags l).all id) :
    simpLoop isCycle l = simpLoop isCycle (applyKeep l (keepFlags l)) := by
  rw [simpLoop, if_neg h, dif_neg hall]

theorem maskFilter_all_false_true {α : Type} (flags : List Bool) (l : List α) (z : α)
    (hlen : l.length = flags.length) (hf : ∀ b ∈ flags, b = false) :
    maskFilter (l ++ [z]) (flags ++ [true]) = [z] := by
  match flags, l with
  | [], [] => rfl
  | [], _ :: _ => simp at hlen
  | b :: bs, [] => simp at hlen
  | b :: bs, a :: as =>
    have hb : b = false := hf b (List.mem_cons_self b bs)
    subst hb
    have : maskFilter (as ++ [z]) (bs ++ [true]) = [z] :=
      maskFilter_all_false_true bs as z (by simpa using hlen)
        (fun b hb => hf b (List.mem_cons_of_mem _ hb))
    simpa [maskFilter] using this

theorem applyKeep_all_false {flags : List Bool} {mid : List Pt4} (a z : Pt4)
    (hlen : mid.length = flags.length) (hf : ∀ b ∈ flags, b = false) :
    applyKeep (a :: mid ++ [z]) flags = [a, z] := by
  have : maskFilter (mid ++ [z]) (flags ++ [true]) = [z] :=
    maskFilter_all_false_true flags mid z hlen hf
  simp only [applyKeep, List.cons_append, maskFilter, List.append_eq, this]

theorem maskFilter_count {α : Type} (flags : List Bool) (l : List α)
    (hlen : l.length = flags.length) :
    (maskFilter l flags).length = flags.count true := by
  match flags, l with
  | [], [] => rfl
  | [], _ :: _ => simp at hlen
  | b :: bs, [] => simp at hlen
  | true :: bs, a :: as =>
    have := maskFilter_count bs as (by simpa using hlen)
    simp only [maskFilter, List.length_cons, this, List.count_cons]
    simp
  | false :: bs, a :: as =>
    have := maskFilter_count bs as (by simpa using hlen)
    simp only [maskFilter, this, List.count_cons]
    simp

theorem applyKeep_length {flags : List Bool} {l : List Pt4}
    (hlen : l.length = flags.length + 2) :
    (applyKeep l flags).length = flags.count true + 2 := by
  have hm : l.length = (true :: flags ++ [true]).length := by
    simp only [List.length_cons, List.length_append, List.length_singleton,
      List.length_nil]
    omega
  have := maskFilter_count (true :: flags ++ [true]) l hm
  simp only [applyKeep, this, List.count_cons, List.count_append]
  simp

theorem keepFlags_length (l : List Pt4) : (keepFlags l).length = l.length - 2 := by
  simp [keepFlags, triples_length]

theorem simpLoop_min_length {l : List Pt4} {isCycle : Bool} {out : List Pt4}
    (hl : 2 ≤ l.length) (h : simpLoop isCycle l = some out) : 2 ≤ out.length := by
  by_cases hstop : l.length = 2 ∨ (isCycle ∧ l.length = 3)
  · rw [simpLoop_stop hstop] at h
    by_cases hshort : normSq4 (l.getD 1 default) (l.getD 0 default) < 1/100
    · rw [if_pos hshort] at h; exact absurd h (by simp)
    · rw [if_neg hshort] at h
      cases h
      exact hl
  · by_cases hall : (keepFlags l).all id
    · rw [simpLoop_keepAll hstop hall] at h
      cases h
      exact hl
    · rw [simpLoop_go hstop hall] at h
      have hlen3 : 3 ≤ l.length := by
        rcases Nat.lt_or_ge l.length 3 with h3 | h3
        · exact absurd (Or.inl (by omega)) hstop
        · exact h3
      have hkl : l.length = (keepFlags l).length + 2 := by
        have := keepFlags_length l
        omega
      have h2 : 2 ≤ (applyKeep l (keepFlags l)).length := by
        rw [applyKeep_length hkl]
        omega
      exact simpLoop_min_length h2 h
termination_by l.length
decreasing_by
  have hf : false ∈ keepFlags l := by
    simp only [List.all_eq_true, id, not_forall] at hall
    obtain ⟨b, hb, hbf⟩ := hall
    cases b with
    | true => exact absurd rfl hbf
    | false => exact hb
  have hne : keepFlags l ≠ [] := by
    intro hnil; rw [hnil] at hf; exact (List.not_mem_nil _) hf
  exact applyKeep_length_lt l hne hf

theorem triples_mem {α : Type} [Inhabited α] {l : List α} {t : α × α × α}
    (h : t ∈ triples l) :
    ∃ i, i + 2 < l.length ∧
      t = (l.getD i default, l.getD (i + 1) default, l.getD (i + 2) default) := by
  match l with
  | [] => simp [triples] at h
  | [_] => simp [triples] at h
  | [_, _] => simp [triples] at h
  | a :: b :: c :: rest =>
    rw [show triples (a :: b :: c :: rest) = (a, b, c) :: triples (b :: c :: rest) from rfl] at h
    cases List.mem_cons.1 h with
    | inl he =>
      exact ⟨0, by simp only [List.length_cons]; omega, by simp [he]⟩
    | inr hm =>
      obtain ⟨i, hi, ht⟩ := triples_mem hm
      exact ⟨i + 1, by simp only [List.length_cons] at hi ⊢; omega, by simpa using ht⟩

theorem cross3_smul_zero (s t : ℚ) (d : Vec3) :
    cross3 (Vec3.smul s d) (Vec3.smul t d) = 0 := by
  simp only [cross3, Vec3.smul_def, Vec3.zero_def, Vec3.mk.injEq]
  refine ⟨by ring, by ring, by ring⟩

theorem keepTest_false_of_cross_zero {a b c : Pt4}
    (h : cross3 (a.xyz - c.xyz) (b.xyz - c.xyz) = 0) :
    keepTest a b c = false := by
  simp only [keepTest, h]
  simp only [normSq3, Vec3.zero_def]
  norm_num

theorem mem_insertZ {a q : ℚ} {l : List ℚ} :
    a ∈ insertZ q l ↔ a = q ∨ a ∈ l := by
  match l with
  | [] => simp [insertZ]
  | y :: ys =>
    by_cases h1 : q < y
    · simp [insertZ, h1]
    · by_cases h2 : q = y
      · subst h2
        simp only [insertZ, if_neg h1, if_pos rfl]
        constructor
        · intro h; exact Or.inr h
        · intro h; cases h with
          | inl h => exact h ▸ List.mem_cons_self _ _
          | inr h => exact h
      · have : a ∈ insertZ q ys ↔ a = q ∨ a ∈ ys := mem_insertZ
        simp only [insertZ, if_neg h1, if_neg h2, List.mem_cons, this]
        tauto

theorem insertZ_sorted {q : ℚ} {l : List ℚ} (h : l.Pairwise (· < ·)) :
    (insertZ q l).Pairwise (· < ·) := by
  match l with
  | [] => simp [insertZ]
  | y :: ys =>
    rcases List.pairwise_cons.1 h with ⟨hy, hys⟩
    by_cases h1 : q < y
    · simp only [insertZ, if_pos h1]
      refine List.pairwise_cons.2 ⟨?_, h⟩
      intro b hb
      cases List.mem_cons.1 hb with
      | inl he => exact he ▸ h1
      | inr hm => exact h1.trans (hy b hm)
    · by_cases h2 : q = y
      · simpa [insertZ, h1, h2] using h
      · have hlt : y < q := by
          rcases lt_trichotomy q y with h | h | h
          · exact absurd h h1
          · exact absurd h h2
          · exact h
        simp only [insertZ, if_neg h1, if_neg h2]
        refine List.pairwise_cons.2 ⟨?_, insertZ_sorted hys⟩
        intro b hb
        cases mem_insertZ.1 hb with
        | inl he => exact he ▸ hlt
        | inr hm => exact hy b hm

theorem foldr_insertZ_mem {q : ℚ} {L : List ℚ} :
    q ∈ L.foldr insertZ [] ↔ q ∈ L := by
  induction L with
  | nil => simp
  | cons a as ih =>
    simp only [List.foldr_cons, mem_insertZ, List.mem_cons, ih]

theorem foldr_insertZ_sorted (L : List ℚ) :
    (L.foldr insertZ []).Pairwise (· < ·) := by
  induction L with
  | nil => simp
  | cons a as ih => exact insertZ_sorted ih

theorem heightsOf_length (z : List ℚ) : (heightsOf z).length = z.length := by
  match z with
  | [] => rfl
  | z0 :: rest =>
    simp only [heightsOf, List.length_cons, List.length_zipWith]
    omega

theorem heightsOf_head (z0 : ℚ) (rest : List ℚ) :
    (heightsOf (z0 :: rest)).getD 0 0 = z0 := rfl

theorem heightsOf_getD (z : List ℚ) (i : ℕ) (hi : i + 1 < z.length) :
    (heightsOf z).getD (i + 1) 0 = z.getD (i + 1) 0 - z.getD i 0 := by
  match z with
  | [] => simp at hi
  | z0 :: rest =>
    have hlen : i < (rest.zipWith (fun a b => a - b) (z0 :: rest)).length := by
      simp only [List.length_zipWith, List.length_cons]
      simp only [List.length_cons] at hi
      omega
    have hi' : i < rest.length := by
      simp only [List.length_cons] at hi; omega
    have hi'' : i < (z0 :: rest).length := by
      simp only [List.length_cons]; omega
    simp only [heightsOf, List.getD_cons_succ]
    rw [List.getD_eq_getElem _ _ hlen, List.getElem_zipWith,
      List.getD_eq_getElem _ _ hi']
    congr 1
    rw [List.getD_eq_getElem _ _ hi'']

theorem getD_set_self {α : Type} (l : List α) (i : ℕ) (x d : α) (hi : i < l.length) :
    (l.set i x).getD i d = x := by
  rw [List.getD_eq_getElem _ _ (by simpa using hi)]
  exact List.getElem_set_self _

theorem step_maxUsedCore_le (inc : List ℕ) (iS iI : Bool) (s : PState) (g : GLine) :
    (step inc iS iI s g).maxUsedCore ≤
      max s.maxUsedCore (match g with | .tool n => if n ≤ 6 then n else 0 | _ => 0) := by
  cases g with
  | tool n =>
    by_cases h6 : n ≤ 6
    · by_cases hin : n ∈ inc
      · simp only [step, if_pos h6, if_pos hin]
        split <;> omega
      · simp only [step, if_pos h6, if_neg hin]
        omega
    · simp only [step, if_neg h6]
      omega
  | typeComment t => simp [step]
  | blank => simp [step]
  | g90 => simp [step]
  | g91 => simp [step]
  | m82 => simp [step]
  | m83 => simp [step]
  | g92 ps =>
    suffices h : ∀ (s : PState),
        (ps.foldl (fun st p =>
          match axisIdx p.1 with
          | none => st
          | some i =>
            { st with
              relativePos := st.relativePos.set i (st.relativePos.get i + st.currentPt.get i)
              currentPt := st.currentPt.set i p.2 }) s).maxUsedCore = s.maxUsedCore by
      simp only [step, h s]
      omega
    intro s0
    induction ps generalizing s0 with
    | nil => rfl
    | cons p rest ih =>
      simp only [List.foldl_cons]
      cases axisIdx p.1 with
      | none => exact ih s0
      | some i => exact ih _
  | move ps =>
    simp only [step]
    split <;> simp

theorem foldl_maxUsedCore_le (inc : List ℕ) (iS iI : Bool) (gls : List GLine) :
    ∀ s : PState, (gls.foldl (step inc iS iI) s).maxUsedCore ≤
      max s.maxUsedCore (maxToolSel gls) := by
  induction gls with
  | nil => intro s; simp [maxToolSel]
  | cons g rest ih =>
    intro s
    have h1 := ih (step inc iS iI s g)
    have h2 := step_maxUsedCore_le inc iS iI s g
    simp only [List.foldl_cons]
    cases g with
    | tool n =>
      simp only [maxToolSel]
      simp only at h2
      by_cases h6 : n ≤ 6
      · simp only [if_pos h6] at h2 ⊢
        omega
      · simp only [if_neg h6] at h2 ⊢
        omega
    | typeComment t => simp only [maxToolSel]; simp only at h2; omega
    | blank => simp only [maxToolSel]; simp only at h2; omega
    | g90 => simp only [maxToolSel]; simp only at h2; omega
    | g91 => simp only [maxToolSel]; simp only at h2; omega
    | m82 => simp only [maxToolSel]; simp only at h2; omega
    | m83 => simp only [maxToolSel]; simp only at h2; omega
    | g92 ps => simp only [maxToolSel]; simp only at h2; omega
    | move ps => simp only [maxToolSel]; simp only at h2; omega

theorem ratchet_foldl {a : ℚ} (ds : List ℚ) (ha : a ≤ 0)
    (h : ∀ j, j + 1 < ds.length → a + (ds.take (j + 1)).sum ≤ 0) :
    ds.foldl ratchet a = a + ds.sum := by
  match ds with
  | [] => simp
  | d :: ds' =>
    have hr : ratchet a d = a + d := by
      simp only [ratchet, if_pos ha]
    match ds' with
    | [] =>
      simp only [List.foldl_cons, List.foldl_nil, hr, List.sum_cons, List.sum_nil]
      ring
    | e :: ds'' =>
      have ha' : a + d ≤ 0 := by
        have := h 0 (by simp only [List.length_cons]; omega)
        simpa using this
      have htail : ∀ j, j + 1 < (e :: ds'').length →
          (a + d) + ((e :: ds'').take (j + 1)).sum ≤ 0 := by
        intro j hj
        have := h (j + 1) (by simp only [List.length_cons] at hj ⊢; omega)
        rw [List.take_succ_cons, List.sum_cons] at this
        calc (a + d) + ((e :: ds'').take (j + 1)).sum
            = a + (d + ((e :: ds'').take (j + 1)).sum) := by ring
          _ ≤ 0 := this
      have ih := ratchet_foldl (e :: ds'') ha' htail
      rw [List.foldl_cons, hr, ih]
      simp only [List.sum_cons]
      ring

/-!
Claim theorems.
-/

/-- Claim C2 (code bug): a position-redefinition command `G92 X5` executed in a
state whose logical X is 10 (offset 0) does not preserve the physical
coordinate (logical + offset): the source adds the whole current logical value
to the offset (`relative_pos[idx] += current_pt[idx]`) instead of the
difference (current − given), so the physical X jumps from 10 to 15 = 10 + 5.
The spec's rule preserves it for every given value; the code does so only for
the value 0. -/
theorem C2_g92_physical_jump :
    (step [0] false false ⟨[[[]]], 0, 0, ⟨10, 0, 0, 0⟩, [0], 0, false, ⟨0, 0, 0, 0⟩, true, true⟩
        (.g92 [('X', 5)])).currentPt.x +
      (step [0] false false ⟨[[[]]], 0, 0, ⟨10, 0, 0, 0⟩, [0], 0, false, ⟨0, 0, 0, 0⟩, true, true⟩
        (.g92 [('X', 5)])).relativePos.x = 15 ∧
    (⟨10, 0, 0, 0⟩ : Pt4).x + (⟨0, 0, 0, 0⟩ : Pt4).x = 10 := by
  constructor
  · simp only [step, List.foldl_cons, List.foldl_nil, axisIdx, Pt4.set, Pt4.get]
    norm_num
  · norm_num

/-- Claim C3 (code bug): the per-polyline layer-height lookup is not
well-defined for a polyline whose first-point Z is not the lowest derived
level: with levels `[1, 2]`, `get_line_height` on a polyline at Z = 2 reaches
the branch that passes the scalar `line[0, 2]` to `get_layer_number`, which
raises IndexError (modelled as `none`), while the polyline at the lowest
Z = 1 still gets its height. -/
theorem C3_line_height_lookup_crash :
    get_line_height [⟨0, 0, 2, 0⟩, ⟨1, 0, 2, 0⟩] [1, 2] = none ∧
    get_line_height [⟨0, 0, 1, 0⟩, ⟨1, 0, 1, 0⟩] [1, 2] = some 1 := by
  constructor
  · simp only [get_line_height, get_layer_number_scalar, firstZ, List.headD]
    norm_num
  · simp only [get_line_height, firstZ, List.headD]
    norm_num

/-- Claim C10 (code bug): with an empty include set the interpreter does
return an empty per-tool output for every input stream, but the layer
conversion's early return is the literal string with single quotes
`{'layers':[]}`, which is not the valid compact JSON encoding
`{"layers":[]}` of the empty layer document. -/
theorem C10_empty_include :
    (∀ (gcode : List GLine) (iS iI : Bool), parse_gcode_file gcode [] iS iI = []) ∧
    gcode_to_json_empty_return ≠ valid_empty_layers_json := by
  constructor
  · intro gcode iS iI
    simp [parse_gcode_file, parse_tools]
  · intro h
    exact absurd (congrArg (fun s => s.toList) h) (by decide)

theorem simplify_cycle4_eval :
    simplify_lines [[⟨0,0,0,0⟩, ⟨0,0,1,0⟩, ⟨0,0,2,0⟩, ⟨0,0,5,0⟩]] =
      [[⟨0,0,0,0⟩, ⟨0,0,5,0⟩]] := by
  have hflags : keepFlags [⟨0,0,0,0⟩, ⟨0,0,1,0⟩, ⟨0,0,2,0⟩, ⟨0,0,5,0⟩] = [false, false] := by
    simp only [keepFlags, triples, List.map, keepTest, Pt4.xyz, cross3, normSq3, Vec3.sub_def]
    norm_num
  have hgo : simpLoop true [⟨0,0,0,0⟩, ⟨0,0,1,0⟩, ⟨0,0,2,0⟩, ⟨0,0,5,0⟩] =
      simpLoop true (applyKeep [⟨0,0,0,0⟩, ⟨0,0,1,0⟩, ⟨0,0,2,0⟩, ⟨0,0,5,0⟩]
        (keepFlags [⟨0,0,0,0⟩, ⟨0,0,1,0⟩, ⟨0,0,2,0⟩, ⟨0,0,5,0⟩])) :=
    simpLoop_go (by norm_num) (by rw [hflags]; decide)
  have happly : applyKeep [(⟨0,0,0,0⟩ : Pt4), ⟨0,0,1,0⟩, ⟨0,0,2,0⟩, ⟨0,0,5,0⟩] [false, false]
      = [⟨0,0,0,0⟩, ⟨0,0,5,0⟩] := by
    simp [applyKeep, maskFilter]
  have hstop : simpLoop true [(⟨0,0,0,0⟩ : Pt4), ⟨0,0,5,0⟩] = some [⟨0,0,0,0⟩, ⟨0,0,5,0⟩] := by
    rw [@simpLoop_stop true [⟨0,0,0,0⟩, ⟨0,0,5,0⟩] (Or.inl rfl), if_neg]
    simp only [List.getD_cons_succ, List.getD_cons_zero, normSq4]
    norm_num
  have hone : simplifyOne [(⟨0,0,0,0⟩ : Pt4), ⟨0,0,1,0⟩, ⟨0,0,2,0⟩, ⟨0,0,5,0⟩] =
      some [⟨0,0,0,0⟩, ⟨0,0,5,0⟩] := by
    simp only [simplifyOne, List.length_cons, List.length_nil, List.headD, List.getLastD]
    norm_num
    rw [hgo, hflags, happly, hstop]
  simp only [simplify_lines, List.filterMap_cons, hone, List.filterMap_nil]

/-- Claim C5 counterexample: a closed-loop polyline (first and last XY both
(0,0)) entering the simplifier with 4 ≥ 3 points is retained with only 2
points: one bulk pruning pass removes both interior points at once, jumping
past the 3-point stopping guard of the loop. -/
theorem C5_counterexample :
    (([⟨0,0,0,0⟩, ⟨0,0,1,0⟩, ⟨0,0,2,0⟩, ⟨0,0,5,0⟩] : List Pt4).headD default).x =
      (([⟨0,0,0,0⟩, ⟨0,0,1,0⟩, ⟨0,0,2,0⟩, ⟨0,0,5,0⟩] : List Pt4).getLastD default).x ∧
    (([⟨0,0,0,0⟩, ⟨0,0,1,0⟩, ⟨0,0,2,0⟩, ⟨0,0,5,0⟩] : List Pt4).headD default).y =
      (([⟨0,0,0,0⟩, ⟨0,0,1,0⟩, ⟨0,0,2,0⟩, ⟨0,0,5,0⟩] : List Pt4).getLastD default).y ∧
    ([⟨0,0,0,0⟩, ⟨0,0,1,0⟩, ⟨0,0,2,0⟩, ⟨0,0,5,0⟩] : List Pt4).length = 4 ∧
    simplify_lines [[⟨0,0,0,0⟩, ⟨0,0,1,0⟩, ⟨0,0,2,0⟩, ⟨0,0,5,0⟩]] =
      [[⟨0,0,0,0⟩, ⟨0,0,5,0⟩]] ∧
    ([⟨0,0,0,0⟩, ⟨0,0,5,0⟩] : List Pt4).length = 2 :=
  ⟨rfl, rfl, rfl, simplify_cycle4_eval, rfl⟩

/-- Claim C5 (amended): every polyline retained in the simplifier's output has
at least 2 points, and a closed-loop polyline entering the per-polyline body
with exactly 3 points is never pruned further (it is either removed entirely
by the short-line check or returned unchanged); a closed loop with 4 or more
points, however, can be cut to 2 points by one bulk pass, as the
counterexample shows. -/
theorem C5_amended_retained_min :
    (∀ (lines : List (List Pt4)) (l' : List Pt4),
      l' ∈ simplify_lines lines → 2 ≤ l'.length) ∧
    (∀ l : List Pt4, l.length = 3 →
      (l.headD default).x = (l.getLastD default).x →
      (l.headD default).y = (l.getLastD default).y →
      simplifyOne l = none ∨ simplifyOne l = some l) := by
  constructor
  · intro lines l' hmem
    obtain ⟨l, _, hone⟩ := List.mem_filterMap.1 hmem
    simp only [simplifyOne] at hone
    by_cases hlt : l.length < 2
    · rw [if_pos hlt] at hone
      exact absurd hone (by simp)
    · rw [if_neg hlt] at hone
      exact simpLoop_min_length (by omega) hone
  · intro l hlen hx hy
    have hflag : (decide ((l.headD default).x = (l.getLastD default).x ∧
        (l.headD default).y = (l.getLastD default).y)) = true :=
      decide_eq_true ⟨hx, hy⟩
    simp only [simplifyOne, if_neg (by omega : ¬ l.length < 2), hflag]
    rw [@simpLoop_stop true l (Or.inr ⟨rfl, hlen⟩)]
    by_cases hshort : normSq4 (l.getD 1 default) (l.getD 0 default) < 1/100
    · exact Or.inl (if_pos hshort)
    · exact Or.inr (if_neg hshort)

/-- Claim C5 witness: the amended theorem applied to the counterexample input
(part one) and to a concrete 3-point closed loop (part two). -/
theorem C5_amended_retained_min_witness :
    (([⟨0,0,0,0⟩, ⟨0,0,5,0⟩] : List Pt4) ∈
      simplify_lines [[⟨0,0,0,0⟩, ⟨0,0,1,0⟩, ⟨0,0,2,0⟩, ⟨0,0,5,0⟩]]) ∧
    2 ≤ ([⟨0,0,0,0⟩, ⟨0,0,5,0⟩] : List Pt4).length ∧
    (simplifyOne [⟨0,0,0,0⟩, ⟨1,0,0,0⟩, ⟨0,0,0,0⟩] = none ∨
      simplifyOne [⟨0,0,0,0⟩, ⟨1,0,0,0⟩, ⟨0,0,0,0⟩] = some [⟨0,0,0,0⟩, ⟨1,0,0,0⟩, ⟨0,0,0,0⟩]) := by
  have hmem : ([⟨0,0,0,0⟩, ⟨0,0,5,0⟩] : List Pt4) ∈
      simplify_lines [[⟨0,0,0,0⟩, ⟨0,0,1,0⟩, ⟨0,0,2,0⟩, ⟨0,0,5,0⟩]] := by
    rw [simplify_cycle4_eval]
    exact List.mem_cons_self _ _
  exact ⟨hmem, C5_amended_retained_min.1 _ _ hmem,
    C5_amended_retained_min.2 _ rfl rfl rfl⟩

theorem exists_decomp3 {l : List Pt4} (h : 3 ≤ l.length) :
    ∃ a mid z, l = a :: mid ++ [z] ∧ mid.length + 2 = l.length := by
  match l with
  | [] => simp at h
  | a :: rest =>
    have hne : rest ≠ [] := by
      intro hnil
      rw [hnil] at h
      simp at h
    refine ⟨a, rest.dropLast, rest.getLast hne, ?_, ?_⟩
    · exact congrArg (a :: ·) (List.dropLast_append_getLast hne).symm
    · have := List.length_dropLast rest
      have hr : 1 ≤ rest.length := by
        cases rest with
        | nil => exact absurd rfl hne
        | cons _ _ => simp
      simp only [List.length_cons] at h ⊢
      omega

theorem vec3_line_diff (p d : Vec3) (s t : ℚ) :
    (p + Vec3.smul s d) - (p + Vec3.smul t d) = Vec3.smul (s - t) d := by
  simp only [Vec3.smul_def, Vec3.add_def, Vec3.sub_def, Vec3.mk.injEq]
  refine ⟨by ring, by ring, by ring⟩

theorem keepFlags_all_false_of_collinear {l : List Pt4}
    (hcol : ∃ (p d : Vec3) (f : ℕ → ℚ), ∀ i, i < l.length →
      (l.getD i default).xyz = p + Vec3.smul (f i) d) :
    ∀ b ∈ keepFlags l, b = false := by
  intro b hb
  obtain ⟨t, ht, rfl⟩ := List.mem_map.1 hb
  obtain ⟨i, hi, ht2⟩ := triples_mem ht
  obtain ⟨p, d, f, hf⟩ := hcol
  rw [ht2]
  apply keepTest_false_of_cross_zero
  simp only
  rw [hf i (by omega), hf (i + 1) (by omega), hf (i + 2) (by omega),
    vec3_line_diff, vec3_line_diff, cross3_smul_zero]

/-- Claim C6 (amended): an exactly collinear polyline of at least 3 points
simplifies to exactly its two endpoints, provided it is not an XY-closed loop
(else the loop stops at 3 points without pruning) and its endpoints are at
least `sqrt(area_tolerance) = 0.1` apart in the 4-component metric (else the
2-point result is removed entirely); and, as the claim states, an interior
point whose triangle is exactly degenerate (zero cross product, hence zero
area) is always dropped by the keep test of a pass. -/
theorem C6_amended_collinear (l : List Pt4) (hlen : 3 ≤ l.length)
    (hcol : ∃ (p d : Vec3) (f : ℕ → ℚ), ∀ i, i < l.length →
      (l.getD i default).xyz = p + Vec3.smul (f i) d)
    (hncyc : ¬((l.headD default).x = (l.getLastD default).x ∧
      (l.headD default).y = (l.getLastD default).y))
    (hlong : ¬ normSq4 (l.getLastD default) (l.headD default) < 1/100) :
    simplifyOne l = some [l.headD default, l.getLastD default] ∧
    (∀ a b c : Pt4, cross3 (a.xyz - c.xyz) (b.xyz - c.xyz) = 0 → keepTest a b c = false) := by
  refine ⟨?_, fun a b c h => keepTest_false_of_cross_zero h⟩
  obtain ⟨a, mid, z, hdec, hmlen⟩ := exists_decomp3 hlen
  subst hdec
  have hhead : (a :: mid ++ [z]).headD default = a := rfl
  have hlast : (a :: mid ++ [z]).getLastD default = z := by
    rw [List.getLastD_eq_getLast?,
      show a :: mid ++ [z] = (a :: mid) ++ [z] from rfl, List.getLast?_concat]
    rfl
  have hff : ∀ b ∈ keepFlags (a :: mid ++ [z]), b = false :=
    keepFlags_all_false_of_collinear hcol
  have hkfl : (keepFlags (a :: mid ++ [z])).length = mid.length := by
    rw [keepFlags_length]
    omega
  have hnall : ¬ (keepFlags (a :: mid ++ [z])).all id := by
    intro hall
    match hkf : keepFlags (a :: mid ++ [z]) with
    | [] =>
      rw [hkf] at hkfl
      simp only [List.length_nil] at hkfl
      omega
    | b :: bs =>
      have hb : b = false := hff b (hkf ▸ List.mem_cons_self b bs)
      rw [hkf] at hall
      simp only [List.all_cons, hb, Bool.false_and, id] at hall
      exact absurd hall (by simp)
  have happly : applyKeep (a :: mid ++ [z]) (keepFlags (a :: mid ++ [z])) = [a, z] :=
    applyKeep_all_false a z (by omega) hff
  have hnstop : ¬((a :: mid ++ [z]).length = 2 ∨
      ((false : Bool) = true ∧ (a :: mid ++ [z]).length = 3)) := by
    rintro (hc | ⟨hfalse, _⟩)
    · omega
    · exact absurd hfalse (by simp)
  have hstep : simpLoop false (a :: mid ++ [z]) = some [a, z] := by
    rw [simpLoop_go hnstop hnall, happly,
      @simpLoop_stop false [a, z] (Or.inl rfl), if_neg]
    simp only [List.getD_cons_succ, List.getD_cons_zero]
    rw [hhead, hlast] at hlong
    exact hlong
  have hflag : (decide (a.x = z.x ∧ a.y = z.y)) = false := by
    rw [hhead, hlast] at hncyc
    exact decide_eq_false hncyc
  simp only [simplifyOne, if_neg (by omega : ¬ (a :: mid ++ [z]).length < 2), hhead, hlast,
    hflag, hstep]

theorem simplify_short_collinear_eval :
    simplify_lines [[⟨0,0,0,0⟩, ⟨1/20,0,0,0⟩, ⟨2/25,0,0,0⟩]] = [] := by
  have hcyc : (decide ((0:ℚ) = 2/25 ∧ (0:ℚ) = 0)) = false := by
    apply decide_eq_false
    intro h
    exact absurd h.1 (by norm_num)
  have hflags : keepFlags [⟨0,0,0,0⟩, ⟨1/20,0,0,0⟩, ⟨2/25,0,0,0⟩] = [false] := by
    simp only [keepFlags, triples, List.map, keepTest, Pt4.xyz, cross3, normSq3, Vec3.sub_def]
    norm_num
  have hnall : ¬ (keepFlags [(⟨0,0,0,0⟩ : Pt4), ⟨1/20,0,0,0⟩, ⟨2/25,0,0,0⟩]).all id := by
    rw [hflags]
    decide
  have hnstop : ¬(([(⟨0,0,0,0⟩ : Pt4), ⟨1/20,0,0,0⟩, ⟨2/25,0,0,0⟩]).length = 2 ∨
      ((false : Bool) = true ∧ ([(⟨0,0,0,0⟩ : Pt4), ⟨1/20,0,0,0⟩, ⟨2/25,0,0,0⟩]).length = 3)) := by
    rintro (hc | ⟨hfalse, _⟩)
    · simp at hc
    · exact absurd hfalse (by simp)
  have happly : applyKeep [(⟨0,0,0,0⟩ : Pt4), ⟨1/20,0,0,0⟩, ⟨2/25,0,0,0⟩] [false]
      = [⟨0,0,0,0⟩, ⟨2/25,0,0,0⟩] := by
    simp [applyKeep, maskFilter]
  have hstop : simpLoop false [(⟨0,0,0,0⟩ : Pt4), ⟨2/25,0,0,0⟩] = none := by
    rw [@simpLoop_stop false [⟨0,0,0,0⟩, ⟨2/25,0,0,0⟩] (Or.inl rfl), if_pos]
    simp only [List.getD_cons_succ, List.getD_cons_zero, normSq4]
    norm_num
  have hone : simplifyOne [(⟨0,0,0,0⟩ : Pt4), ⟨1/20,0,0,0⟩, ⟨2/25,0,0,0⟩] = none := by
    simp only [simplifyOne, List.length_cons, List.length_nil, List.headD, List.getLastD, hcyc]
    norm_num
    rw [simpLoop_go hnstop hnall, hflags, happly, hstop]
  simp only [simplify_lines, List.filterMap_cons, hone, List.filterMap_nil]

/-- Claim C6 counterexample: a polyline of 3 exactly collinear points (the
interior cross product is zero) whose endpoints are closer than 0.1 is removed
from the output entirely by the short-line check — the simplifier does not
return its two endpoints. -/
theorem C6_counterexample :
    ([⟨0,0,0,0⟩, ⟨1/20,0,0,0⟩, ⟨2/25,0,0,0⟩] : List Pt4).length = 3 ∧
    cross3 ((⟨0,0,0,0⟩ : Pt4).xyz - (⟨2/25,0,0,0⟩ : Pt4).xyz)
      ((⟨1/20,0,0,0⟩ : Pt4).xyz - (⟨2/25,0,0,0⟩ : Pt4).xyz) = 0 ∧
    simplify_lines [[⟨0,0,0,0⟩, ⟨1/20,0,0,0⟩, ⟨2/25,0,0,0⟩]] = [] := by
  refine ⟨rfl, ?_, simplify_short_collinear_eval⟩
  simp only [cross3, Pt4.xyz, Vec3.sub_def, Vec3.zero_def, Vec3.mk.injEq]
  norm_num

/-- Claim C6 witness: the amended theorem applied to a concrete open collinear
run of 4 points with far-apart endpoints, which simplifies to exactly its two
endpoints, and to a concrete exactly-degenerate interior triple. -/
theorem C6_amended_collinear_witness :
    3 ≤ ([⟨0,0,0,0⟩, ⟨1,0,0,0⟩, ⟨2,0,0,0⟩, ⟨5,0,0,0⟩] : List Pt4).length ∧
    simplifyOne [⟨0,0,0,0⟩, ⟨1,0,0,0⟩, ⟨2,0,0,0⟩, ⟨5,0,0,0⟩] =
      some [⟨0,0,0,0⟩, ⟨5,0,0,0⟩] ∧
    keepTest ⟨0,0,0,0⟩ ⟨1,0,0,0⟩ ⟨2,0,0,0⟩ = false := by
  have h := C6_amended_collinear [⟨0,0,0,0⟩, ⟨1,0,0,0⟩, ⟨2,0,0,0⟩, ⟨5,0,0,0⟩]
    (by norm_num)
    ⟨0, ⟨1, 0, 0⟩, fun i => if i = 0 then 0 else if i = 1 then 1 else if i = 2 then 2 else 5,
      by
        intro i hi
        simp only [List.length_cons, List.length_nil] at hi
        interval_cases i <;>
          simp [Pt4.xyz, Vec3.smul, List.getD_cons_succ, List.getD_cons_zero]⟩
    (by
      simp only [List.headD, List.getLastD]
      intro hc
      exact absurd hc.1 (by norm_num))
    (by
      simp only [List.headD, List.getLastD, normSq4]
      norm_num)
  refine ⟨by norm_num, ?_, h.2 _ _ _ ?_⟩
  · have := h.1
    simpa only [List.headD, List.getLastD] using this
  · simp only [cross3, Pt4.xyz, Vec3.sub_def, Vec3.zero_def, Vec3.mk.injEq]
    norm_num

/-- Claim C7: the derived layer Z sequence is strictly increasing (hence
duplicate-free), its members are exactly the distinct first-point Z values of
the polylines across all tools, the heights sequence has one entry per level,
the height at index 0 equals Z[0], and the height at index i+1 equals
Z[i+1] − Z[i]. -/
theorem C7_z_levels_heights (tools : List (List (List Pt4)))
    (hne : ∀ t ∈ tools, ∀ l ∈ t, l ≠ []) :
    (zLevelsAll tools).Pairwise (· < ·) ∧
    (∀ q : ℚ, q ∈ zLevelsAll tools ↔ ∃ t ∈ tools, ∃ l ∈ t, firstZ l = q) ∧
    (heightsOf (zLevelsAll tools)).length = (zLevelsAll tools).length ∧
    (0 < (zLevelsAll tools).length →
      (heightsOf (zLevelsAll tools)).getD 0 0 = (zLevelsAll tools).getD 0 0) ∧
    (∀ i, i + 1 < (zLevelsAll tools).length →
      (heightsOf (zLevelsAll tools)).getD (i + 1) 0 =
        (zLevelsAll tools).getD (i + 1) 0 - (zLevelsAll tools).getD i 0) := by
  refine ⟨foldr_insertZ_sorted _, ?_, heightsOf_length _, ?_, ?_⟩
  · intro q
    rw [zLevelsAll, foldr_insertZ_mem]
    simp only [List.mem_flatten, List.mem_map]
    constructor
    · rintro ⟨zl, ⟨t, ht, rfl⟩, hq⟩
      obtain ⟨l, hl, rfl⟩ := List.mem_map.1 hq
      exact ⟨t, ht, l, hl, rfl⟩
    · rintro ⟨t, ht, l, hl, rfl⟩
      exact ⟨t.map firstZ, ⟨t, ht, rfl⟩, List.mem_map_of_mem _ hl⟩
  · intro hpos
    match hz : zLevelsAll tools with
    | [] => rw [hz] at hpos; simp at hpos
    | z0 :: rest => exact heightsOf_head z0 rest
  · intro i hi
    exact heightsOf_getD _ i hi

/-- Claim C7 witness: the theorem applied to two concrete tools with levels
1 and 2. -/
theorem C7_z_levels_heights_witness :
    (zLevelsAll [[[⟨0,0,2,0⟩, ⟨1,0,2,0⟩], [⟨0,0,1,0⟩, ⟨1,0,1,0⟩]]]).Pairwise (· < ·) ∧
    ((1 : ℚ) ∈ zLevelsAll [[[⟨0,0,2,0⟩, ⟨1,0,2,0⟩], [⟨0,0,1,0⟩, ⟨1,0,1,0⟩]]]) := by
  have h := C7_z_levels_heights [[[⟨0,0,2,0⟩, ⟨1,0,2,0⟩], [⟨0,0,1,0⟩, ⟨1,0,1,0⟩]]]
    (by
      intro t ht l hl
      simp only [List.mem_cons, List.not_mem_nil, or_false] at ht
      subst ht
      simp only [List.mem_cons, List.not_mem_nil, or_false] at hl
      rcases hl with hl | hl <;> (subst hl; simp))
  refine ⟨h.1, ?_⟩
  rw [(h.2.1 1)]
  exact ⟨_, List.mem_cons_self _ _, _, List.mem_cons_of_mem _ (List.mem_cons_self _ _), rfl⟩

/-- Claim C4: for every command stream and duplicate-free include list, the
interpreter output has at most as many tool entries as the include list, and
every surviving entry belongs to an included tool whose index is at most the
highest tool index named by a valid tool-select command of the stream (0 when
there is none, the default active tool); tools beyond it are dropped even when
included. -/
theorem C4_tool_output_bound (gcode : List GLine) (inc : List ℕ) (iS iI : Bool)
    (hnd : inc.Nodup) :
    (parse_gcode_file gcode inc iS iI).length ≤ inc.length ∧
    (∀ p ∈ parse_tools gcode inc iS iI, p.1 ∈ inc ∧ p.1 ≤ maxToolSel gcode) := by
  constructor
  · rw [parse_gcode_file, List.length_map, parse_tools]
    by_cases hinc : inc.length = 0
    · rw [if_pos hinc]
      simp
    · rw [if_neg hinc]
      calc _ ≤ (inc.zip ((gcode.foldl (step inc iS iI) (initState inc)).lines.map
            (fun buf => buf.filter (fun l => 1 < l.length)))).length :=
          List.length_filter_le _ _
        _ ≤ inc.length := by
          rw [List.length_zip]
          omega
  · intro p hp
    rw [parse_tools] at hp
    by_cases hinc : inc.length = 0
    · rw [if_pos hinc] at hp
      exact absurd hp (List.not_mem_nil p)
    · rw [if_neg hinc] at hp
      obtain ⟨hzip, hle⟩ := List.mem_filter.1 hp
      constructor
      · exact (List.of_mem_zip hzip).1
      · have hmax := foldl_maxUsedCore_le inc iS iI gcode (initState inc)
        have hinit : (initState inc).maxUsedCore = 0 := rfl
        rw [hinit] at hmax
        have : p.1 ≤ (gcode.foldl (step inc iS iI) (initState inc)).maxUsedCore := by
          exact_mod_cast of_decide_eq_true hle
        omega

/-- Claim C4 witness: the theorem applied to a concrete stream selecting tool
1 with the include list [0, 1]. -/
theorem C4_tool_output_bound_witness :
    ([0, 1] : List ℕ).Nodup ∧
    (parse_gcode_file [.tool 1, .move [('E', 5)]] [0, 1] false false).length ≤ 2 := by
  refine ⟨by decide, ?_⟩
  have h := C4_tool_output_bound [.tool 1, .move [('E', 5)]] [0, 1] false false (by decide)
  simpa using h.1

/-- Claim C1: on every linear move processed while the active tool is
included, (i) the stored accumulator becomes exactly the ratchet of the old
value with the extrusion delta (new logical E minus previous logical E);
(ii) the active tool's polyline buffer is closed and restarted exactly when
the new accumulator value is non-positive, and the physical point is appended
(when no geometry type is being skipped); (iii) consequently, starting from a
non-positive accumulator, as long as the running sums of the following deltas
stay non-positive the accumulator equals start plus running sum, so it
becomes positive — and extrusion is recorded again — only once the cumulative
positive delta exceeds the retracted amount. -/
theorem C1_ratchet_rule (inc : List ℕ) (iS iI : Bool) (s : PState)
    (ps : List (Char × ℚ)) (a : ℚ) (ds : List ℚ)
    (hmem : s.printcore ∈ inc)
    (hlen : inc.indexOf s.printcore < s.eChange.length)
    (hskip : s.skipping = false)
    (ha : a ≤ 0)
    (hneg : ∀ j, j + 1 < ds.length → a + (ds.take (j + 1)).sum ≤ 0) :
    ((step inc iS iI s (.move ps)).eChange.getD (inc.indexOf s.printcore) 0 =
      ratchet (s.eChange.getD (inc.indexOf s.printcore) 0)
        ((applyMove s.absPos s.absE s.currentPt ps).e - s.currentPt.e)) ∧
    ((step inc iS iI s (.move ps)).lines =
      s.lines.set s.curIdx
        (appendPt ((applyMove s.absPos s.absE s.currentPt ps).addPt s.relativePos)
          (if ratchet (s.eChange.getD (inc.indexOf s.printcore) 0)
                ((applyMove s.absPos s.absE s.currentPt ps).e - s.currentPt.e) ≤ 0
            then closeLine (s.lines.getD s.curIdx [])
            else s.lines.getD s.curIdx []))) ∧
    (ds.foldl ratchet a = a + ds.sum) := by
  have hec : (if s.eChange.getD (inc.indexOf s.printcore) 0 ≤ 0
        then s.eChange.getD (inc.indexOf s.printcore) 0 else 0) +
        (applyMove s.absPos s.absE s.currentPt ps).e - s.currentPt.e =
      ratchet (s.eChange.getD (inc.indexOf s.printcore) 0)
        ((applyMove s.absPos s.absE s.currentPt ps).e - s.currentPt.e) := by
    rw [ratchet]
    ring
  refine ⟨?_, ?_, ratchet_foldl ds ha hneg⟩
  · simp only [step, hmem, if_pos]
    rw [hec]
    exact getD_set_self _ _ _ _ hlen
  · simp only [step, hmem, if_pos, hskip, Bool.false_eq_true, if_false, hec]

/-- Claim C1 witness: the theorem applied to a concrete state (tool 0, include
[0]) and the delta trace −2, then +1, then +1/2: the accumulator follows the
running sum while it stays non-positive. -/
theorem C1_ratchet_rule_witness :
    ((-2 : ℚ) ≤ 0) ∧ (0 ∈ ([0] : List ℕ)) ∧
    ([1, 1/2] : List ℚ).foldl ratchet (-2) = -2 + ([1, 1/2] : List ℚ).sum := by
  have h := C1_ratchet_rule [0] false false (initState [0]) [('E', 5)] (-2) [1, 1/2]
    (by decide) (by decide) rfl (by norm_num)
    (by
      intro j hj
      have hj0 : j = 0 := by
        simp only [List.length_cons, List.length_nil] at hj
        omega
      subst hj0
      norm_num [List.take, List.sum_cons])
  exact ⟨by norm_num, by decide, h.2.2⟩

theorem get_vertices_three (rt : ℚ → ℚ) (h w : ℚ) (a b c : Pt4) :
    (get_vertices rt [a, b, c] h w).getD 8 0 =
      b.xyz - interiorNormal rt (w / 2) a.xyz b.xyz c.xyz ∧
    (get_vertices rt [a, b, c] h w).getD 9 0 =
      b.xyz + interiorNormal rt (w / 2) a.xyz b.xyz c.xyz := ⟨rfl, rfl⟩

theorem interiorNormal_corner_eval :
    interiorNormal ratSqrt ((8/25) / 2) ⟨0,0,0⟩ ⟨1,0,0⟩ ⟨1,1,0⟩ = ⟨0, 4/25, 0⟩ := by
  have hcond : ¬(((⟨1,0,0⟩ : Vec3) - ⟨0,0,0⟩).x = ((⟨1,0,0⟩ : Vec3) - ⟨1,1,0⟩).x ∧
      ((⟨1,0,0⟩ : Vec3) - ⟨0,0,0⟩).y = ((⟨1,0,0⟩ : Vec3) - ⟨1,1,0⟩).y) := by
    simp only [Vec3.sub_def]
    intro hc
    exact absurd hc.1 (by norm_num)
  have hsqrt : ratSqrt (normSq3 (perpP ((⟨1,0,0⟩ : Vec3) - ⟨0,0,0⟩))) = 1 := by
    simp only [Vec3.sub_def, perpP, normSq3]
    norm_num [ratSqrt]
  simp only [interiorNormal, if_neg hcond, scaleFactor, hsqrt]
  simp only [Vec3.sub_def, perpP, Vec3.smul_def, Vec3.mk.injEq]
  norm_num

/-- Claim C8 counterexample: at the right-angle corner a=(0,0,0), b=(1,0,0),
c=(1,1,0) (previous segment (1,0,0), next segment (0,1,0), whose
perpendiculars are not antiparallel — their 2D cross product is 1), the
vertex pair of the interior point is offset by (0, ±4/25, 0): a vector with
zero x and nonzero y, parallel to the previous segment's perpendicular alone.
Every combination of the two adjacent perpendiculars (sum or difference, i.e.
any orientation choice) has x-component ±1, so the offset used by the code is
not a rescaling of any quadrant-aware combination of both perpendiculars,
refuting the claim at this input. -/
theorem C8_counterexample :
    (get_vertices ratSqrt [⟨0,0,0,0⟩, ⟨1,0,0,0⟩, ⟨1,1,0,0⟩] (1/5) (8/25)).getD 9 0 =
      ⟨1, 4/25, 0⟩ ∧
    (get_vertices ratSqrt [⟨0,0,0,0⟩, ⟨1,0,0,0⟩, ⟨1,1,0,0⟩] (1/5) (8/25)).getD 8 0 =
      ⟨1, -(4/25), 0⟩ ∧
    (perpP ⟨1,0,0⟩ + perpP ⟨0,1,0⟩).x ≠ 0 ∧
    (perpP ⟨1,0,0⟩ - perpP ⟨0,1,0⟩).x ≠ 0 ∧
    (perpP ⟨1,0,0⟩).x * (perpP ⟨0,1,0⟩).y - (perpP ⟨1,0,0⟩).y * (perpP ⟨0,1,0⟩).x ≠ 0 := by
  have h3 := get_vertices_three ratSqrt (1/5) (8/25) ⟨0,0,0,0⟩ ⟨1,0,0,0⟩ ⟨1,1,0,0⟩
  have hin : interiorNormal ratSqrt ((8/25) / 2) (⟨0,0,0,0⟩ : Pt4).xyz (⟨1,0,0,0⟩ : Pt4).xyz
      (⟨1,1,0,0⟩ : Pt4).xyz = ⟨0, 4/25, 0⟩ := interiorNormal_corner_eval
  refine ⟨?_, ?_, ?_, ?_, ?_⟩
  · rw [h3.2, hin]
    simp only [Pt4.xyz, Vec3.add_def, Vec3.mk.injEq]
    norm_num
  · rw [h3.1, hin]
    simp only [Pt4.xyz, Vec3.sub_def, Vec3.mk.injEq]
    norm_num
  · simp only [perpP, Vec3.add_def]
    norm_num
  · simp only [perpP, Vec3.sub_def]
    norm_num
  · simp only [perpP]
    norm_num

/-- Claim C8 (amended): at an interior point whose two difference vectors
b−a and b−c do not agree exactly in both x and y, the code offsets the vertex
pair along the previous segment's perpendicular alone (the next segment's
perpendicular is not combined in); when they do agree exactly (an exact
reversal), the next perpendicular — the exact xy-negation of the previous
one — is added, cancelling the xy components; the vector is rescaled so that
its squared norm is exactly w², where w is the halved line width (the source
halves the width before scaling and offsets by ±w to each side); and the
interior vertex pair of a 3-point polyline in the vertex buffer is exactly
the centre point plus/minus this vector. -/
theorem C8_amended_interior_normal (rt : ℚ → ℚ) (w : ℚ) (a b c : Vec3)
    (hgen : ¬((b - a).x = (b - c).x ∧ (b - a).y = (b - c).y))
    (hrt : rt (normSq3 (perpP (b - a))) * rt (normSq3 (perpP (b - a))) =
      normSq3 (perpP (b - a)))
    (hnz : normSq3 (perpP (b - a)) ≠ 0) :
    interiorNormal rt w a b c =
      Vec3.smul (scaleFactor rt w (perpP (b - a))) (perpP (b - a)) ∧
    normSq3 (interiorNormal rt w a b c) = w * w ∧
    (∀ a1 b1 c1 : Vec3, (b1 - a1).x = (b1 - c1).x → (b1 - a1).y = (b1 - c1).y →
      (interiorNormal rt w a1 b1 c1).x = 0 ∧ (interiorNormal rt w a1 b1 c1).y = 0) ∧
    (∀ (lh lw : ℚ) (pa pb pc : Pt4),
      (get_vertices rt [pa, pb, pc] lh lw).getD 9 0 =
        pb.xyz + interiorNormal rt (lw / 2) pa.xyz pb.xyz pc.xyz) := by
  have hpart1 : interiorNormal rt w a b c =
      Vec3.smul (scaleFactor rt w (perpP (b - a))) (perpP (b - a)) := by
    simp only [interiorNormal, if_neg hgen]
  have hs : rt (normSq3 (perpP (b - a))) ≠ 0 := by
    intro h0
    rw [h0, mul_zero] at hrt
    exact hnz hrt.symm
  refine ⟨hpart1, ?_, ?_, fun lh lw pa pb pc => (get_vertices_three rt lh lw pa pb pc).2⟩
  · rw [hpart1]
    have hscale : scaleFactor rt w (perpP (b - a)) = w / rt (normSq3 (perpP (b - a))) := by
      simp only [scaleFactor, if_neg hs]
    rw [hscale]
    have hnsq : normSq3 (Vec3.smul (w / rt (normSq3 (perpP (b - a)))) (perpP (b - a))) =
        (w / rt (normSq3 (perpP (b - a)))) * (w / rt (normSq3 (perpP (b - a)))) *
          normSq3 (perpP (b - a)) := by
      simp only [Vec3.smul_def, normSq3]
      ring
    rw [hnsq]
    have key : ∀ s n : ℚ, s ≠ 0 → s * s = n → (w / s) * (w / s) * n = w * w := by
      intro s n hs0 hsn
      rw [← hsn]
      field_simp
    exact key _ _ hs hrt
  · intro a1 b1 c1 hx1 hy1
    have hcond : (b1 - a1).x = (b1 - c1).x ∧ (b1 - a1).y = (b1 - c1).y := ⟨hx1, hy1⟩
    simp only [interiorNormal, if_pos hcond, perpP, perpN, Vec3.add_def, Vec3.smul_def]
    rw [hx1, hy1]
    constructor <;> ring

/-- Claim C8 witness: the amended theorem applied at the right-angle corner
with the exact square root, giving a vector of squared norm (4/25)². -/
theorem C8_amended_interior_normal_witness :
    (¬(((⟨1,0,0⟩ : Vec3) - ⟨0,0,0⟩).x = ((⟨1,0,0⟩ : Vec3) - ⟨1,1,0⟩).x ∧
      ((⟨1,0,0⟩ : Vec3) - ⟨0,0,0⟩).y = ((⟨1,0,0⟩ : Vec3) - ⟨1,1,0⟩).y)) ∧
    normSq3 (interiorNormal ratSqrt (4/25) ⟨0,0,0⟩ ⟨1,0,0⟩ ⟨1,1,0⟩) = (4/25) * (4/25) := by
  have hgen : ¬(((⟨1,0,0⟩ : Vec3) - ⟨0,0,0⟩).x = ((⟨1,0,0⟩ : Vec3) - ⟨1,1,0⟩).x ∧
      ((⟨1,0,0⟩ : Vec3) - ⟨0,0,0⟩).y = ((⟨1,0,0⟩ : Vec3) - ⟨1,1,0⟩).y) := by
    simp only [Vec3.sub_def]
    intro hc
    exact absurd hc.1 (by norm_num)
  have hrt : ratSqrt (normSq3 (perpP ((⟨1,0,0⟩ : Vec3) - ⟨0,0,0⟩))) *
      ratSqrt (normSq3 (perpP ((⟨1,0,0⟩ : Vec3) - ⟨0,0,0⟩))) =
      normSq3 (perpP ((⟨1,0,0⟩ : Vec3) - ⟨0,0,0⟩)) := by
    simp only [Vec3.sub_def, perpP, normSq3]
    norm_num [ratSqrt]
  have hnz : normSq3 (perpP ((⟨1,0,0⟩ : Vec3) - ⟨0,0,0⟩)) ≠ 0 := by
    simp only [Vec3.sub_def, perpP, normSq3]
    norm_num
  have h := C8_amended_interior_normal ratSqrt (4/25) ⟨0,0,0⟩ ⟨1,0,0⟩ ⟨1,1,0⟩ hgen hrt hnz
  exact ⟨hgen, h.2.1⟩

theorem flatMap_length_const {α β : Type} (l : List α) (F : α → List β) (c : ℕ)
    (hF : ∀ a, (F a).length = c) : (l.flatMap F).length = c * l.length := by
  induction l with
  | nil => simp
  | cons a as ih =>
    rw [List.flatMap_cons, List.length_append, hF, ih, List.length_cons]
    ring

theorem get_vertices_top_length (rt : ℚ → ℚ) (line : List Pt4) (lw : ℚ)
    (hn : 2 ≤ line.length) :
    (get_vertices_top rt line lw).length = 2 * line.length := by
  simp only [get_vertices_top, List.length_append, List.length_cons, List.length_nil]
  have hfm : ((triples (List.map Pt4.xyz line)).flatMap fun t =>
      [t.2.1 - interiorNormal rt (lw / 2) t.1 t.2.1 t.2.2,
        t.2.1 + interiorNormal rt (lw / 2) t.1 t.2.1 t.2.2]).length
      = 2 * (triples (List.map Pt4.xyz line)).length :=
    flatMap_length_const _ _ 2 (fun a => rfl)
  rw [hfm, triples_length, List.length_map]
  omega

theorem create_faces_length (n : ℕ) (hn : 2 ≤ n) :
    (create_faces n).length = 8 * n - 4 := by
  simp only [create_faces, List.length_append, List.length_cons, List.length_nil]
  have hfm : ((List.range (n - 1)).flatMap fun j =>
      [(2 * j, 2 * j + 1, 2 * j + 3), (2 * j, 2 * j + 3, 2 * j + 2),
        (2 * j + 2 * n, 2 * j + 3 + 2 * n, 2 * j + 1 + 2 * n),
        (2 * j + 2 * n, 2 * j + 2 + 2 * n, 2 * j + 3 + 2 * n),
        (2 * j, 2 * j + 2, 2 * j + 2 * n),
        (2 * j + 2, 2 * j + 2 + 2 * n, 2 * j + 2 * n),
        (2 * j + 1, 2 * j + 1 + 2 * n, 2 * j + 3),
        (2 * j + 3, 2 * j + 1 + 2 * n, 2 * j + 3 + 2 * n)]).length
      = 8 * (List.range (n - 1)).length :=
    flatMap_length_const _ _ 8 (fun a => rfl)
  rw [hfm, List.length_range]
  omega

/-- Claim C9: for every polyline of at least 2 points and every square-root
function, the vertex buffer has exactly 4n entries, laid out as the n
shifted-down (bottom) pairs followed by the n top pairs — entry i equals
entry 2n+i minus (0, 0, line height) for every i < 2n, independent of the
point contents — and the face template, a pure function of the point count,
has exactly 8n − 4 triangles. -/
theorem C9_vertex_layout_faces (rt : ℚ → ℚ) (line : List Pt4) (h w : ℚ)
    (hn : 2 ≤ line.length) :
    (get_vertices rt line h w).length = 4 * line.length ∧
    (∀ i, i < 2 * line.length →
      (get_vertices rt line h w).getD i 0 =
        (get_vertices rt line h w).getD (2 * line.length + i) 0 - ⟨0, 0, h⟩) ∧
    (create_faces line.length).length = 8 * line.length - 4 := by
  have hn1 : ¬ line.length ≤ 1 := by omega
  have htop := get_vertices_top_length rt line w hn
  have hEq : get_vertices rt line h w =
      ((get_vertices_top rt line w).map fun v => v - ⟨0, 0, h⟩) ++
        get_vertices_top rt line w := by
    rw [get_vertices, if_neg hn1]
  refine ⟨?_, ?_, create_faces_length _ hn⟩
  · rw [hEq, List.length_append, List.length_map, htop]
    omega
  · intro i hi
    have him : i < ((get_vertices_top rt line w).map fun v => v - ⟨0, 0, h⟩).length := by
      rw [List.length_map, htop]; exact hi
    have hitop : i < (get_vertices_top rt line w).length := by rw [htop]; exact hi
    have htot : (get_vertices rt line h w).length = 4 * line.length := by
      rw [hEq, List.length_append, List.length_map, htop]; omega
    have hb1 : i < (get_vertices rt line h w).length := by omega
    have hb2 : 2 * line.length + i < (get_vertices rt line h w).length := by omega
    rw [List.getD_eq_getElem _ _ hb1, List.getD_eq_getElem _ _ hb2]
    simp only [hEq]
    have hge : ((get_vertices_top rt line w).map fun v => v - ⟨0, 0, h⟩).length ≤
        2 * line.length + i := by
      rw [List.length_map, htop]; omega
    rw [List.getElem_append_left him, List.getElem_map, List.getElem_append_right hge]
    have hidx : 2 * line.length + i -
        ((get_vertices_top rt line w).map fun v => v - ⟨0, 0, h⟩).length = i := by
      rw [List.length_map, htop]; omega
    simp only [hidx]

/-- Claim C9 witness: a single 2-point polyline yields exactly 8 vertices and
its face template exactly 12 triangles. -/
theorem C9_vertex_layout_faces_witness :
    2 ≤ ([⟨0,0,0,0⟩, ⟨1,0,0,0⟩] : List Pt4).length ∧
    (get_vertices ratSqrt [⟨0,0,0,0⟩, ⟨1,0,0,0⟩] (1/5) (8/25)).length = 8 ∧
    (create_faces 2).length = 12 := by
  have h := C9_vertex_layout_faces ratSqrt [⟨0,0,0,0⟩, ⟨1,0,0,0⟩] (1/5) (8/25)
    (by norm_num)
  refine ⟨by norm_num, ?_, ?_⟩
  · have := h.1
    simpa using this
  · have := h.2.2
    simpa using this
